import Mathlib

/-!
Verification of the terrain-sculpting core of the `diahinh3d` repository.

The source (src/unnamed/part_000, a React/three.js component) owns a
129 x 129 vertex grid produced by `THREE.PlaneGeometry(100, 100, 128, 128)`
rotated into the horizontal plane, initialises heights from a 2D noise
field (`noise2D(x / 40, z / 40) * 5`), and deforms heights with the
`modifyTerrain` brush loop:

  for each vertex:  dx = v.x - p.x; dz = v.z - p.z; distSq = dx*dx + dz*dz
  if distSq < brush.size * brush.size:
    falloff = (cos((sqrt(distSq) / brush.size) * pi) + 1) / 2
    displacement = brush.strength * falloff * (direction == up ? 1 : -1)
    v.y = v.y + displacement

We embed this over exact reals: a vertex is an (x, y, z) triple of reals,
a mesh is a list of vertices, and `modifyTerrain` maps the per-vertex
update over the list, exactly as the source loop does.
-/

namespace Diahinh3d

open Real

/-- Brush direction, from `types.ts` (`'up' | 'down'`). -/
inductive BrushDirection where
  | up
  | down
deriving DecidableEq

/-- Brush settings, from `types.ts`: size (radius), strength, direction. -/
structure BrushSettings where
  size : ℝ
  strength : ℝ
  direction : BrushDirection

/-- A mesh vertex: world-space position.  `x` and `z` are fixed at
construction; `y` is the mutable height. -/
structure Vertex where
  x : ℝ
  y : ℝ
  z : ℝ

/-- The terrain extent constant `TERRAIN_SIZE = 100` from the source. -/
noncomputable def TERRAIN_SIZE : ℝ := 100

/-- The grid resolution constant `TERRAIN_SEGMENTS = 128` from the source. -/
def TERRAIN_SEGMENTS : ℕ := 128

/-- The ternary `brush.direction === 'up' ? 1 : -1` from the source. -/
noncomputable def dirFactor : BrushDirection → ℝ
  | BrushDirection.up => 1
  | BrushDirection.down => -1

/-- The planar squared distance computed in the brush loop:
`dx*dx + dz*dz` with `dx = v.x - p.x`, `dz = v.z - p.z`
(the y coordinate is excluded). -/
noncomputable def distSqTo (ix iz : ℝ) (v : Vertex) : ℝ :=
  (v.x - ix) * (v.x - ix) + (v.z - iz) * (v.z - iz)

/-- The signed displacement for an in-footprint vertex:
`brush.strength * falloff * (direction == up ? 1 : -1)` with
`falloff = (cos((sqrt(distSq) / brush.size) * pi) + 1) / 2`. -/
noncomputable def displacement (brush : BrushSettings) (distSq : ℝ) : ℝ :=
  brush.strength * ((Real.cos ((Real.sqrt distSq / brush.size) * Real.pi) + 1) / 2)
    * dirFactor brush.direction

/-- One iteration of the vertex loop of `modifyTerrain`: if the planar
squared distance to the interaction point is below `size * size`, add the
falloff-weighted displacement to `y`; otherwise leave the vertex alone. -/
noncomputable def modifyVertex (brush : BrushSettings) (ix iz : ℝ) (v : Vertex) : Vertex :=
  if distSqTo ix iz v < brush.size * brush.size then
    ⟨v.x, v.y + displacement brush (distSqTo ix iz v), v.z⟩
  else
    v

/-- The `modifyTerrain` callback restricted to its height-field effect:
it runs the per-vertex update over every vertex of the position buffer. -/
noncomputable def modifyTerrain (brush : BrushSettings) (ix iz : ℝ)
    (positions : List Vertex) : List Vertex :=
  positions.map (modifyVertex brush ix iz)

/-- A sequence of brush applications, each an (settings, center-x, center-z)
triple, applied in order. -/
noncomputable def applyBrushes : List (BrushSettings × ℝ × ℝ) → List Vertex → List Vertex
  | [], positions => positions
  | (b, ix, iz) :: ops, positions => applyBrushes ops (modifyTerrain b ix iz positions)

/-- The height change a brush application causes at one vertex. -/
noncomputable def heightDelta (brush : BrushSettings) (ix iz : ℝ) (v : Vertex) : ℝ :=
  (modifyVertex brush ix iz v).y - v.y

/-- The planar distance from the interaction point, `sqrt(distSq)`. -/
noncomputable def planarDist (ix iz : ℝ) (v : Vertex) : ℝ :=
  Real.sqrt (distSqTo ix iz v)

/-- Vertex `(r, c)` of `THREE.PlaneGeometry(size, size, segments, segments)`
after `rotateX(-pi/2)`: `x = c * (size / segments) - size / 2`,
`z = r * (size / segments) - size / 2`, `y = 0`. -/
noncomputable def planeGridVertex (size : ℝ) (segments : ℕ) (r c : ℕ) : Vertex :=
  ⟨(c : ℝ) * (size / (segments : ℝ)) - size / 2, 0,
   (r : ℝ) * (size / (segments : ℝ)) - size / 2⟩

/-- The full `(segments+1) x (segments+1)` vertex list of the plane
geometry, flat-indexed row-major as in the position buffer. -/
noncomputable def planeGrid (size : ℝ) (segments : ℕ) : List Vertex :=
  (List.range ((segments + 1) * (segments + 1))).map
    (fun i => planeGridVertex size segments (i / (segments + 1)) (i % (segments + 1)))

/-- The generation pass of the `geometry` memo: set each vertex height to
`noise2D(x / 40, z / 40) * 5`. -/
noncomputable def generateVertex (noise2D : ℝ → ℝ → ℝ) (v : Vertex) : Vertex :=
  ⟨v.x, noise2D (v.x / 40) (v.z / 40) * 5, v.z⟩

/-- The generation pass over the whole position buffer. -/
noncomputable def generate (noise2D : ℝ → ℝ → ℝ) (positions : List Vertex) : List Vertex :=
  positions.map (generateVertex noise2D)

/-- Modelled from the spec: the seeded noise-field constructor.  The
concrete noise algorithm (`createNoise2D` of the `simplex-noise` package)
is an external library, not part of this repository; spec section 4.1 only
requires a NoiseField to be a deterministic, stateless scalar function
bounded to `[-1, 1]`, fixed by its seed at construction.  We model it as a
concrete deterministic function of the seed with those properties. -/
noncomputable def createNoise2D (seed : ℕ) : ℝ → ℝ → ℝ :=
  fun x z => Real.sin (x + (seed : ℝ)) * Real.cos (z + (seed : ℝ))

/- ### Basic lemmas about the per-vertex update -/

lemma distSqTo_nonneg (ix iz : ℝ) (v : Vertex) : 0 ≤ distSqTo ix iz v :=
  add_nonneg (mul_self_nonneg _) (mul_self_nonneg _)

lemma modifyVertex_of_lt (brush : BrushSettings) (ix iz : ℝ) (v : Vertex)
    (h : distSqTo ix iz v < brush.size * brush.size) :
    modifyVertex brush ix iz v = ⟨v.x, v.y + displacement brush (distSqTo ix iz v), v.z⟩ := by
  unfold modifyVertex
  exact if_pos h

lemma modifyVertex_of_ge (brush : BrushSettings) (ix iz : ℝ) (v : Vertex)
    (h : brush.size * brush.size ≤ distSqTo ix iz v) :
    modifyVertex brush ix iz v = v := by
  unfold modifyVertex
  exact if_neg (not_lt.mpr h)

lemma modifyVertex_x (brush : BrushSettings) (ix iz : ℝ) (v : Vertex) :
    (modifyVertex brush ix iz v).x = v.x := by
  unfold modifyVertex
  split <;> rfl

lemma modifyVertex_z (brush : BrushSettings) (ix iz : ℝ) (v : Vertex) :
    (modifyVertex brush ix iz v).z = v.z := by
  unfold modifyVertex
  split <;> rfl

lemma modifyVertex_y (brush : BrushSettings) (ix iz : ℝ) (v : Vertex) :
    (modifyVertex brush ix iz v).y =
      v.y + (if distSqTo ix iz v < brush.size * brush.size then
        displacement brush (distSqTo ix iz v) else 0) := by
  unfold modifyVertex
  split <;> simp

lemma distSqTo_modifyVertex (b : BrushSettings) (ix iz jx jz : ℝ) (v : Vertex) :
    distSqTo jx jz (modifyVertex b ix iz v) = distSqTo jx jz v := by
  unfold distSqTo
  rw [modifyVertex_x, modifyVertex_z]

/-- Unified form of the per-vertex update: `x` and `z` are kept, and the
height gains the displacement exactly when the vertex is in-footprint. -/
lemma modifyVertex_eq (brush : BrushSettings) (ix iz : ℝ) (v : Vertex) :
    modifyVertex brush ix iz v =
      ⟨v.x, v.y + (if distSqTo ix iz v < brush.size * brush.size then
        displacement brush (distSqTo ix iz v) else 0), v.z⟩ := by
  unfold modifyVertex
  by_cases h : distSqTo ix iz v < brush.size * brush.size
  · rw [if_pos h, if_pos h]
  · rw [if_neg h, if_neg h]
    cases v
    simp

lemma heightDelta_eq (brush : BrushSettings) (ix iz : ℝ) (v : Vertex) :
    heightDelta brush ix iz v =
      if distSqTo ix iz v < brush.size * brush.size then
        displacement brush (distSqTo ix iz v) else 0 := by
  unfold heightDelta
  rw [modifyVertex_y]
  ring

lemma abs_dirFactor (d : BrushDirection) : |dirFactor d| = 1 := by
  cases d <;> simp [dirFactor]

lemma dirFactor_ne_zero (d : BrushDirection) : dirFactor d ≠ 0 := by
  cases d <;> simp [dirFactor]

/-- Strict lower bound for the cosine on the open interval `(-pi, pi)`. -/
lemma neg_one_lt_cos_of_abs_lt {θ : ℝ} (h : |θ| < Real.pi) : -1 < Real.cos θ := by
  have h0 : |θ| ∈ Set.Icc 0 Real.pi := ⟨abs_nonneg θ, h.le⟩
  have hπ : Real.pi ∈ Set.Icc 0 Real.pi := ⟨Real.pi_pos.le, le_refl _⟩
  have hlt := Real.strictAntiOn_cos h0 hπ h
  rw [Real.cos_pi, Real.cos_abs] at hlt
  exact hlt

/-- The cosine falloff weight is strictly positive strictly inside the
brush footprint, for any nonzero size of either sign. -/
lemma falloff_pos {size distSq : ℝ} (h0 : 0 ≤ distSq) (h : distSq < size * size) :
    0 < (Real.cos ((Real.sqrt distSq / size) * Real.pi) + 1) / 2 := by
  have hsize : size ≠ 0 := by
    rintro rfl
    simp only [mul_zero] at h
    exact absurd (h0.trans_lt h) (lt_irrefl 0)
  have habs : 0 < |size| := abs_pos.mpr hsize
  have hsqrt : Real.sqrt distSq < |size| := by
    have := Real.sqrt_lt_sqrt h0 h
    rwa [Real.sqrt_mul_self_eq_abs] at this
  have hratio : |Real.sqrt distSq / size| < 1 := by
    rw [abs_div, abs_of_nonneg (Real.sqrt_nonneg distSq)]
    exact (div_lt_one habs).mpr hsqrt
  have hθ : |Real.sqrt distSq / size * Real.pi| < Real.pi := by
    rw [abs_mul, abs_of_pos Real.pi_pos]
    calc |Real.sqrt distSq / size| * Real.pi < 1 * Real.pi :=
          (mul_lt_mul_right Real.pi_pos).mpr hratio
      _ = Real.pi := one_mul _
  have := neg_one_lt_cos_of_abs_lt hθ
  linarith

/-- In-footprint displacement magnitude: `strength * falloff` once the
strength is nonnegative (the direction factor has absolute value 1). -/
lemma abs_displacement (brush : BrushSettings) (distSq : ℝ) (hs : 0 ≤ brush.strength) :
    |displacement brush distSq| =
      brush.strength * ((Real.cos ((Real.sqrt distSq / brush.size) * Real.pi) + 1) / 2) := by
  unfold displacement
  have hwnn : 0 ≤ (Real.cos ((Real.sqrt distSq / brush.size) * Real.pi) + 1) / 2 := by
    have := Real.neg_one_le_cos ((Real.sqrt distSq / brush.size) * Real.pi)
    linarith
  rw [abs_mul, abs_mul, abs_dirFactor, mul_one, abs_of_nonneg hs, abs_of_nonneg hwnn]

/- ### Claim theorems -/

/-- Claim C2: a brush application leaves every vertex with
`d^2 >= R^2` exactly unchanged, and (for positive strength) changes the
height of every vertex with `d^2 < R^2` — in particular at least one
vertex changes whenever the grid has a vertex strictly inside the
footprint. -/
theorem brush_footprint (brush : BrushSettings) (ix iz : ℝ) (v : Vertex) :
    (brush.size * brush.size ≤ distSqTo ix iz v → modifyVertex brush ix iz v = v) ∧
    (0 < brush.strength → distSqTo ix iz v < brush.size * brush.size →
      (modifyVertex brush ix iz v).y ≠ v.y) := by
  constructor
  · intro h
    exact modifyVertex_of_ge brush ix iz v h
  · intro hs h
    rw [modifyVertex_of_lt brush ix iz v h]
    show v.y + displacement brush (distSqTo ix iz v) ≠ v.y
    have hw := falloff_pos (distSqTo_nonneg ix iz v) h
    have hd : displacement brush (distSqTo ix iz v) ≠ 0 := by
      unfold displacement
      exact mul_ne_zero (mul_ne_zero (ne_of_gt hs) (ne_of_gt hw))
        (dirFactor_ne_zero brush.direction)
    intro heq
    exact hd (by linarith)

/-- Claim C2 witness: with brush size 5 and strength 0.5 centered at the
origin, the vertex at `(5, 0)` (distance 5) is unchanged and the vertex at
`(2.5, 0)` (distance 2.5) changes height. -/
theorem brush_footprint_witness :
    modifyVertex ⟨5, 0.5, BrushDirection.up⟩ 0 0 ⟨5, 0, 0⟩ = ⟨5, 0, 0⟩ ∧
    (modifyVertex ⟨5, 0.5, BrushDirection.up⟩ 0 0 ⟨2.5, 0, 0⟩).y ≠ 0 :=
  ⟨(brush_footprint ⟨5, 0.5, BrushDirection.up⟩ 0 0 ⟨5, 0, 0⟩).1
      (by norm_num [distSqTo]),
   (brush_footprint ⟨5, 0.5, BrushDirection.up⟩ 0 0 ⟨2.5, 0, 0⟩).2
      (by norm_num) (by norm_num [distSqTo])⟩

/-- Claim C3: within one brush application with radius `R > 0` and
strength `s >= 0`, the displacement magnitude is non-increasing in the
planar distance on `[0, R]`, equals `s` at distance `0`, and equals `0` at
distance `R`. -/
theorem displacement_monotone (brush : BrushSettings) (ix iz : ℝ) (v₁ v₂ : Vertex)
    (hR : 0 < brush.size) (hs : 0 ≤ brush.strength)
    (h12 : planarDist ix iz v₁ ≤ planarDist ix iz v₂)
    (h2R : planarDist ix iz v₂ ≤ brush.size) :
    |heightDelta brush ix iz v₂| ≤ |heightDelta brush ix iz v₁| ∧
    (planarDist ix iz v₁ = 0 → |heightDelta brush ix iz v₁| = brush.strength) ∧
    (planarDist ix iz v₂ = brush.size → heightDelta brush ix iz v₂ = 0) := by
  have hnn₁ := distSqTo_nonneg ix iz v₁
  have hnn₂ := distSqTo_nonneg ix iz v₂
  have hd₁0 : 0 ≤ planarDist ix iz v₁ := Real.sqrt_nonneg _
  have hd₂0 : 0 ≤ planarDist ix iz v₂ := Real.sqrt_nonneg _
  have hsq₁ : planarDist ix iz v₁ ^ 2 = distSqTo ix iz v₁ := Real.sq_sqrt hnn₁
  have hsq₂ : planarDist ix iz v₂ ^ 2 = distSqTo ix iz v₂ := Real.sq_sqrt hnn₂
  refine ⟨?_, ?_, ?_⟩
  · by_cases hin₂ : distSqTo ix iz v₂ < brush.size * brush.size
    · have hin₁ : distSqTo ix iz v₁ < brush.size * brush.size := by
        have : distSqTo ix iz v₁ ≤ distSqTo ix iz v₂ := by
          rw [← hsq₁, ← hsq₂]
          exact pow_le_pow_left₀ hd₁0 h12 2
        linarith
      rw [heightDelta_eq, heightDelta_eq, if_pos hin₁, if_pos hin₂,
        abs_displacement _ _ hs, abs_displacement _ _ hs]
      have hcos : Real.cos ((Real.sqrt (distSqTo ix iz v₂) / brush.size) * Real.pi) ≤
          Real.cos ((Real.sqrt (distSqTo ix iz v₁) / brush.size) * Real.pi) := by
        have hmem₁ : Real.sqrt (distSqTo ix iz v₁) / brush.size * Real.pi ∈
            Set.Icc 0 Real.pi := by
          constructor
          · exact mul_nonneg (div_nonneg (Real.sqrt_nonneg _) hR.le) Real.pi_pos.le
          · calc Real.sqrt (distSqTo ix iz v₁) / brush.size * Real.pi
                ≤ 1 * Real.pi := by
                  refine mul_le_mul_of_nonneg_right ?_ Real.pi_pos.le
                  exact (div_le_one hR).mpr (h12.trans h2R)
              _ = Real.pi := one_mul _
        have hmem₂ : Real.sqrt (distSqTo ix iz v₂) / brush.size * Real.pi ∈
            Set.Icc 0 Real.pi := by
          constructor
          · exact mul_nonneg (div_nonneg (Real.sqrt_nonneg _) hR.le) Real.pi_pos.le
          · calc Real.sqrt (distSqTo ix iz v₂) / brush.size * Real.pi
                ≤ 1 * Real.pi := by
                  refine mul_le_mul_of_nonneg_right ?_ Real.pi_pos.le
                  exact (div_le_one hR).mpr h2R
              _ = Real.pi := one_mul _
        refine Real.strictAntiOn_cos.antitoneOn hmem₁ hmem₂ ?_
        refine mul_le_mul_of_nonneg_right ?_ Real.pi_pos.le
        exact (div_le_div_iff_of_pos_right hR).mpr h12
      exact mul_le_mul_of_nonneg_left (by linarith) hs
    · rw [heightDelta_eq brush ix iz v₂, if_neg hin₂, abs_zero]
      exact abs_nonneg _
  · intro h0
    have hdz : distSqTo ix iz v₁ = 0 := by
      rw [← hsq₁, h0]
      norm_num
    have hin : distSqTo ix iz v₁ < brush.size * brush.size := by
      rw [hdz]
      exact mul_pos hR hR
    rw [heightDelta_eq, if_pos hin, abs_displacement _ _ hs, hdz, Real.sqrt_zero,
      zero_div, zero_mul, Real.cos_zero]
    norm_num
  · intro hEq
    have hdsq : distSqTo ix iz v₂ = brush.size * brush.size := by
      rw [← hsq₂, hEq]
      ring
    rw [heightDelta_eq, if_neg (by rw [hdsq]; exact lt_irrefl _)]

/-- Claim C3 witness: brush size 5, strength 0.5 at the origin; the
center vertex `(0,0)` (distance 0) dominates the boundary vertex `(5,0)`
(distance 5), reaches magnitude exactly 0.5 at distance 0, and exactly 0
at distance 5. -/
theorem displacement_monotone_witness :
    (0 : ℝ) < 5 ∧ (0 : ℝ) ≤ 0.5 ∧
    (|heightDelta ⟨5, 0.5, BrushDirection.up⟩ 0 0 ⟨5, 0, 0⟩| ≤
        |heightDelta ⟨5, 0.5, BrushDirection.up⟩ 0 0 ⟨0, 0, 0⟩| ∧
      (planarDist 0 0 ⟨0, 0, 0⟩ = 0 →
        |heightDelta ⟨5, 0.5, BrushDirection.up⟩ 0 0 ⟨0, 0, 0⟩| = 0.5) ∧
      (planarDist 0 0 ⟨5, 0, 0⟩ = 5 →
        heightDelta ⟨5, 0.5, BrushDirection.up⟩ 0 0 ⟨5, 0, 0⟩ = 0)) :=
  ⟨by norm_num, by norm_num,
   displacement_monotone ⟨5, 0.5, BrushDirection.up⟩ 0 0 ⟨0, 0, 0⟩ ⟨5, 0, 0⟩
     (by norm_num) (by norm_num)
     (by
       show Real.sqrt (distSqTo 0 0 ⟨0, 0, 0⟩) ≤ Real.sqrt (distSqTo 0 0 ⟨5, 0, 0⟩)
       exact Real.sqrt_le_sqrt (by norm_num [distSqTo]))
     (by
       show Real.sqrt (distSqTo 0 0 ⟨5, 0, 0⟩) ≤ 5
       have h25 : distSqTo 0 0 (⟨5, 0, 0⟩ : Vertex) = 5 * 5 := by norm_num [distSqTo]
       rw [h25, Real.sqrt_mul_self (by norm_num : (0 : ℝ) ≤ 5)])⟩

/-- Claim C1 counterexample: the 129 x 129 grid spanning `[-50, 50]^2` has
grid pitch `100 / 128 = 0.78125`, so it contains no vertex with
`x = 2.5` and none with `x = 5` — the vertices named by the scenario at
`(2.5, 0)` and `(5, 0)` do not exist in that grid. -/
theorem scenario_vertices_missing :
    (¬ ∃ v ∈ planeGrid 100 128, v.x = 2.5) ∧ ¬ ∃ v ∈ planeGrid 100 128, v.x = 5 := by
  have hx : ∀ v ∈ planeGrid 100 128, ∃ c : ℕ, v.x = (c : ℝ) * ((100 : ℝ) / 128) - 50 := by
    intro v hv
    unfold planeGrid at hv
    rw [List.mem_map] at hv
    obtain ⟨i, _, hfv⟩ := hv
    refine ⟨i % (128 + 1), ?_⟩
    rw [← hfv]
    unfold planeGridVertex
    norm_num
  constructor
  · rintro ⟨v, hv, hval⟩
    obtain ⟨c, hc⟩ := hx v hv
    rw [hval] at hc
    have hnat : (c : ℝ) * 100 = 6720 := by linarith
    have hcast : (c * 100 : ℕ) = 6720 := by exact_mod_cast hnat
    omega
  · rintro ⟨v, hv, hval⟩
    obtain ⟨c, hc⟩ := hx v hv
    rw [hval] at hc
    have hnat : (c : ℝ) * 100 = 7040 := by linarith
    have hcast : (c * 100 : ℕ) = 7040 := by exact_mod_cast hnat
    omega

/-- Claim C1 (amended): brush size 5, strength 0.5, RAISE at `(0, 0)` on
the flat 129 x 129 grid spanning `[-50, 50]^2`: the grid vertex at
`(0, 0)` (flat index `64 * 129 + 64 = 8320`) ends at height exactly 0.5;
and the per-vertex update leaves a flat vertex at `(5, 0)` (footprint
boundary) at height 0 and sends a flat vertex at `(2.5, 0)` to height
exactly `0.5 * (cos(0.5 * pi) + 1) / 2 = 0.25` — though the latter two
positions are not grid vertices of this grid. -/
theorem scenario_raise_brush :
    (modifyTerrain ⟨5, 0.5, BrushDirection.up⟩ 0 0
        (planeGrid TERRAIN_SIZE TERRAIN_SEGMENTS))[8320]? = some ⟨0, 0.5, 0⟩ ∧
    (modifyVertex ⟨5, 0.5, BrushDirection.up⟩ 0 0 ⟨5, 0, 0⟩).y = 0 ∧
    (modifyVertex ⟨5, 0.5, BrushDirection.up⟩ 0 0 ⟨2.5, 0, 0⟩).y = 0.25 := by
  have hcenter : modifyVertex ⟨5, 0.5, BrushDirection.up⟩ 0 0 ⟨0, 0, 0⟩
      = (⟨0, 0.5, 0⟩ : Vertex) := by
    rw [modifyVertex_of_lt _ _ _ _ (by norm_num [distSqTo])]
    have hds : distSqTo 0 0 (⟨0, 0, 0⟩ : Vertex) = 0 := by norm_num [distSqTo]
    rw [hds]
    unfold displacement
    simp only [dirFactor]
    rw [Real.sqrt_zero, zero_div, zero_mul, Real.cos_zero]
    norm_num
  refine ⟨?_, ?_, ?_⟩
  · unfold modifyTerrain
    rw [List.getElem?_map]
    have hg : (planeGrid TERRAIN_SIZE TERRAIN_SEGMENTS)[8320]?
        = some (planeGridVertex TERRAIN_SIZE TERRAIN_SEGMENTS 64 64) := by
      unfold planeGrid TERRAIN_SEGMENTS
      rw [List.getElem?_map, List.getElem?_range (by norm_num)]
      norm_num
    rw [hg]
    have hv0 : planeGridVertex TERRAIN_SIZE TERRAIN_SEGMENTS 64 64 = (⟨0, 0, 0⟩ : Vertex) := by
      unfold planeGridVertex TERRAIN_SIZE TERRAIN_SEGMENTS
      norm_num
    rw [Option.map_some', hv0, hcenter]
  · rw [modifyVertex_of_ge _ _ _ _ (by norm_num [distSqTo])]
  · rw [modifyVertex_of_lt _ _ _ _ (by norm_num [distSqTo])]
    show (0 : ℝ) + displacement ⟨5, 0.5, BrushDirection.up⟩
      (distSqTo 0 0 ⟨2.5, 0, 0⟩) = 0.25
    have hds : distSqTo 0 0 (⟨2.5, 0, 0⟩ : Vertex) = 6.25 := by norm_num [distSqTo]
    rw [hds]
    unfold displacement
    simp only [dirFactor]
    have hsq : Real.sqrt 6.25 = 2.5 := by
      rw [show (6.25 : ℝ) = 2.5 * 2.5 by norm_num,
        Real.sqrt_mul_self (by norm_num : (0 : ℝ) ≤ 2.5)]
    rw [hsq, show (2.5 : ℝ) / 5 * Real.pi = Real.pi / 2 by ring, Real.cos_pi_div_two]
    norm_num

/-- Claim C8: height-field generation is deterministic in the noise seed —
two noise fields built from equal seeds give equal `y` arrays on the 5 x 5
grid (`segments = 4`, `size = 4`) of the spec scenario. -/
theorem generate_deterministic (seed₁ seed₂ : ℕ) (h : seed₁ = seed₂) :
    (generate (createNoise2D seed₁) (planeGrid 4 4)).map Vertex.y
      = (generate (createNoise2D seed₂) (planeGrid 4 4)).map Vertex.y := by
  rw [h]

/-- Claim C8 witness: seed 7 against seed 7. -/
theorem generate_deterministic_witness :
    (7 : ℕ) = 7 ∧
    (generate (createNoise2D 7) (planeGrid 4 4)).map Vertex.y
      = (generate (createNoise2D 7) (planeGrid 4 4)).map Vertex.y :=
  ⟨rfl, generate_deterministic 7 7 rfl⟩

/-- Claim C4: applying a RAISE brush and then an identical LOWER brush
(same center, radius, strength) restores every vertex exactly, for every
mesh state — exact additive cancellation over exact arithmetic. -/
theorem raise_then_lower_cancels (brush : BrushSettings) (ix iz : ℝ)
    (positions : List Vertex) :
    modifyTerrain ⟨brush.size, brush.strength, BrushDirection.down⟩ ix iz
      (modifyTerrain ⟨brush.size, brush.strength, BrushDirection.up⟩ ix iz positions)
      = positions := by
  unfold modifyTerrain
  rw [List.map_map]
  have key : ∀ v : Vertex,
      modifyVertex ⟨brush.size, brush.strength, BrushDirection.down⟩ ix iz
        (modifyVertex ⟨brush.size, brush.strength, BrushDirection.up⟩ ix iz v) = v := by
    intro v
    simp only [modifyVertex_eq]
    have hd : distSqTo ix iz
        (⟨v.x, v.y + (if distSqTo ix iz v < brush.size * brush.size then
          displacement ⟨brush.size, brush.strength, BrushDirection.up⟩ (distSqTo ix iz v)
          else 0), v.z⟩ : Vertex) = distSqTo ix iz v := rfl
    rw [hd]
    cases v with
    | mk x y z =>
      simp only [Vertex.mk.injEq, true_and, and_true]
      by_cases h : distSqTo ix iz (⟨x, y, z⟩ : Vertex) < brush.size * brush.size
      · rw [if_pos h, if_pos h]
        simp only [displacement, dirFactor]
        ring
      · rw [if_neg h, if_neg h]
        ring
  calc (positions.map fun v =>
          modifyVertex ⟨brush.size, brush.strength, BrushDirection.down⟩ ix iz
            (modifyVertex ⟨brush.size, brush.strength, BrushDirection.up⟩ ix iz v))
      = positions.map id := List.map_congr_left (fun v _ => key v)
    _ = positions := List.map_id positions

/-- Claim C5: over any sequence of brush applications, every vertex keeps
the `x` and `z` coordinates it had at construction; only heights change. -/
theorem brushes_preserve_xz (ops : List (BrushSettings × ℝ × ℝ)) (positions : List Vertex) :
    (applyBrushes ops positions).map (fun v => (v.x, v.z))
      = positions.map (fun v => (v.x, v.z)) := by
  induction ops generalizing positions with
  | nil => rfl
  | cons op ops ih =>
    obtain ⟨b, ix, iz⟩ := op
    rw [applyBrushes, ih]
    unfold modifyTerrain
    rw [List.map_map]
    refine List.map_congr_left (fun v _ => ?_)
    simp [modifyVertex_x, modifyVertex_z]

/-- Claim C9: a brush with size `-R` produces exactly the same height field
as one with size `R`: the footprint test squares the size and the cosine
falloff is even in `sqrt(distSq) / size`. -/
theorem neg_size_same_effect (brush : BrushSettings) (ix iz : ℝ)
    (positions : List Vertex) :
    modifyTerrain ⟨-brush.size, brush.strength, brush.direction⟩ ix iz positions
      = modifyTerrain brush ix iz positions := by
  unfold modifyTerrain
  refine List.map_congr_left (fun v _ => ?_)
  unfold modifyVertex
  have hsq : -brush.size * -brush.size = brush.size * brush.size := by ring
  have hdisp : displacement ⟨-brush.size, brush.strength, brush.direction⟩
      (distSqTo ix iz v) = displacement brush (distSqTo ix iz v) := by
    unfold displacement
    simp only [div_neg, neg_mul, Real.cos_neg]
  rw [hsq, hdisp]

/-- Claim C10: the brush displacement at a vertex depends only on its fixed
`(x, z)`, the center, and the settings — never on the current height — and
hence any two brush applications commute over exact arithmetic. -/
theorem brush_applications_commute (b₁ b₂ : BrushSettings) (ix₁ iz₁ ix₂ iz₂ : ℝ)
    (positions : List Vertex) (v : Vertex) (y' : ℝ) :
    heightDelta b₁ ix₁ iz₁ ⟨v.x, y', v.z⟩ = heightDelta b₁ ix₁ iz₁ v ∧
    modifyTerrain b₂ ix₂ iz₂ (modifyTerrain b₁ ix₁ iz₁ positions)
      = modifyTerrain b₁ ix₁ iz₁ (modifyTerrain b₂ ix₂ iz₂ positions) := by
  constructor
  · unfold heightDelta
    rw [modifyVertex_y, modifyVertex_y]
    have hsame : distSqTo ix₁ iz₁ (⟨v.x, y', v.z⟩ : Vertex) = distSqTo ix₁ iz₁ v := rfl
    rw [hsame]
    ring
  · unfold modifyTerrain
    rw [List.map_map, List.map_map]
    refine List.map_congr_left (fun w _ => ?_)
    show modifyVertex b₂ ix₂ iz₂ (modifyVertex b₁ ix₁ iz₁ w)
        = modifyVertex b₁ ix₁ iz₁ (modifyVertex b₂ ix₂ iz₂ w)
    have ext12 : ∀ (p q : BrushSettings) (px pz qx qz : ℝ) (u : Vertex),
        modifyVertex q qx qz (modifyVertex p px pz u) =
          ⟨u.x, u.y + ((if distSqTo px pz u < p.size * p.size then
              displacement p (distSqTo px pz u) else 0)
            + (if distSqTo qx qz u < q.size * q.size then
              displacement q (distSqTo qx qz u) else 0)), u.z⟩ := by
      intro p q px pz qx qz u
      simp only [modifyVertex_eq]
      have hd : distSqTo qx qz
          (⟨u.x, u.y + (if distSqTo px pz u < p.size * p.size then
            displacement p (distSqTo px pz u) else 0), u.z⟩ : Vertex)
          = distSqTo qx qz u := rfl
      rw [hd]
      simp only [Vertex.mk.injEq, true_and, and_true]
      ring
    rw [ext12, ext12]
    simp only [Vertex.mk.injEq, true_and, and_true]
    ring
